import Mathlib

/-!
Verification of the wc-compiler schedule compiler.

This file gives a shallow embedding in Lean 4 of the parts of the program
relevant to the stated properties:

* the content-addressed poster catalogue (`Posters.tryGetOutput`,
  from `src/main.rs`, `Posters::try_get_output`);
* diagnostic severities and the fatal-error counter
  (`src/error.rs` and `Handler::debug` in `src/main.rs`);
* the time-zone transition-table post-processing (`collect_zones`
  in `src/time.rs`);
* event occurrence computation (`Event::get_time_for_day` in `src/main.rs`);
* confirmed/canceled date filtering and start/end bound resolution
  (`prepare_event` in `src/main.rs`);
* poster guessing (`guess_poster` in `src/main.rs`);
* the durable state catalogue serialization (`src/state.rs`).

Machine integers that cannot overflow in context are modelled as `Nat`/`Int`;
timestamps (`chrono::DateTime<Utc>`) are modelled by their `i64` Unix
timestamp as `Int`; calendar dates (`chrono::NaiveDate`) are modelled as
`Int` days since 1970-01-01.  Chrono's local-time resolution
(`and_local_timezone(..).earliest()`) is an external-crate computation and is
abstracted as an explicit function argument.
-/

namespace WcCompiler

/-! ## Poster catalogue (`src/main.rs`, `struct Posters`, `src/state.rs`) -/

/-- A SHA-256 digest: 32 bytes, modelled as a list of byte values.
(`sha2::digest::Output<Sha256>`). -/
abbrev Digest := List Nat

/-- `state::Poster`: one catalogue entry (`src/state.rs` lines 11-19). -/
structure Poster where
  last_used : Int
  sha256 : Digest
  deriving Repr, DecidableEq, Inhabited

/-- `struct Posters` (`src/main.rs` lines 563-568).  The Rust
`HashMap<Output<Sha256>, u8>` is modelled as an association list with
first-match lookup; the `directory` field (pure I/O) is omitted. -/
structure Posters where
  posters : List Poster
  by_sha256 : List (Digest × Nat)
  now : Int
  deriving Repr, DecidableEq

/-- `HashMap` lookup: the value of the first pair whose key matches. -/
def lookupSha (m : List (Digest × Nat)) (h : Digest) : Option Nat :=
  (m.find? (fun e => e.1 = h)).map (fun e => e.2)

/-- `HashMap` insert through a vacant entry (`Entry::Vacant(e).insert`):
the key is known to be absent, so the pair is simply added. -/
def insertSha (m : List (Digest × Nat)) (h : Digest) (i : Nat) :
    List (Digest × Nat) :=
  (h, i) :: m

/-- `HashMap::remove`: drop every pair with the given key. -/
def removeSha (m : List (Digest × Nat)) (h : Digest) : List (Digest × Nat) :=
  m.filter (fun e => e.1 ≠ h)

/-- `self.posters[index as usize].last_used = self.now` (`src/main.rs`
line 600): update one entry's timestamp in place. -/
def setLastUsed (l : List Poster) (i : Nat) (t : Int) : List Poster :=
  match l.get? i with
  | some p => l.set i { p with last_used := t }
  | none => l

/-- `self.posters.iter().enumerate().min_by_key(|(_, p)| p.last_used)`
(`src/main.rs` lines 613-619).  Rust's `Iterator::min_by_key` returns the
first of several equally-minimal elements, i.e. the lowest index attaining
the minimal `last_used`. -/
def argminIdx : List Poster → Nat
  | [] => 0
  | p :: rest =>
    let j := argminIdx rest
    match rest.get? j with
    | none => 0
    | some q => if q.last_used < p.last_used then j + 1 else 0

/-- The data of `PosterInfo` (`src/main.rs` lines 556-561) that
`try_get_output` consumes: the digest and the probed dimensions
(the `source` path only feeds the file copy, modelled by `copyOk`). -/
structure PosterIn where
  width : Nat
  height : Nat
  hash : Digest
  deriving Repr, DecidableEq

/-- `output::PosterInfo` (`src/output.rs` lines 77-85). -/
structure PosterOut where
  number : Nat
  width : Nat
  height : Nat
  deriving Repr, DecidableEq

/-- `Posters::try_get_output` (`src/main.rs` lines 596-643).

`copyOk` models the outcome of the `fs::copy` call; the returned `Bool`
records whether a file copy was attempted at all (the `Entry::Vacant`
branch always attempts it, the `Entry::Occupied` branch never does). -/
def tryGetOutput (s : Posters) (p : PosterIn) (copyOk : Bool) :
    Option PosterOut × Posters × Bool :=
  match lookupSha s.by_sha256 p.hash with
  | some index =>
    let s' := { s with posters := setLastUsed s.posters index s.now }
    (some ⟨index, p.width, p.height⟩, s', false)
  | none =>
    if s.posters.length < 255 then
      let index := s.posters.length
      let s' := { s with
        posters := s.posters ++ [⟨s.now, p.hash⟩],
        by_sha256 := insertSha s.by_sha256 p.hash index }
      (if copyOk then some ⟨index, p.width, p.height⟩ else none, s', true)
    else
      let index := argminIdx s.posters
      let evicted := s.posters.getD index default
      let s' := { s with
        by_sha256 := removeSha (insertSha s.by_sha256 p.hash index)
          evicted.sha256,
        posters := s.posters.set index ⟨s.now, p.hash⟩ }
      (if copyOk then some ⟨index, p.width, p.height⟩ else none, s', true)

/-- The invariant `Posters::load` establishes (`src/main.rs` lines 571-590):
the digest of every catalogued poster is mapped to its index. -/
def InSync (s : Posters) : Prop :=
  ∀ i p, s.posters.get? i = some p → lookupSha s.by_sha256 p.sha256 = some i

instance (s : Posters) : Decidable (InSync s) := by
  unfold InSync
  have : (∀ i p, s.posters.get? i = some p →
      lookupSha s.by_sha256 p.sha256 = some i) ↔
      (∀ i : Fin s.posters.length, lookupSha s.by_sha256
        (s.posters.get i).sha256 = some i.1) := by
    constructor
    · intro h i
      exact h i.1 _ (List.get?_eq_get i.2)
    · intro h i p hp
      have hi : i < s.posters.length := List.get?_eq_some.mp hp |>.1
      have := h ⟨i, hi⟩
      rwa [show s.posters.get ⟨i, hi⟩ = p from
        (List.get?_eq_some.mp hp).2 ▸ rfl] at this
  exact decidable_of_iff _ this.symm

/-! ### Basic lemmas about the catalogue operations -/

theorem lookupSha_insert_self (m : List (Digest × Nat)) (h : Digest) (i : Nat) :
    lookupSha (insertSha m h i) h = some i := by
  simp [lookupSha, insertSha, List.find?]

theorem lookupSha_insert_ne (m : List (Digest × Nat)) (h : Digest) (i : Nat)
    (d : Digest) (hne : d ≠ h) :
    lookupSha (insertSha m h i) d = lookupSha m d := by
  simp only [lookupSha, insertSha]
  rw [List.find?_cons_of_neg]
  simp [Ne.symm hne]

theorem lookupSha_remove_self (m : List (Digest × Nat)) (k : Digest) :
    lookupSha (removeSha m k) k = none := by
  induction m with
  | nil => rfl
  | cons e m ih =>
    unfold removeSha lookupSha at ih ⊢
    rw [List.filter_cons]
    rcases eq_or_ne e.1 k with hek | hek
    · rw [if_neg (by simp [hek])]
      exact ih
    · rw [if_pos (by simp [hek])]
      rw [List.find?_cons_of_neg _ (by simp [hek])]
      exact ih

theorem lookupSha_remove_ne (m : List (Digest × Nat)) (k d : Digest)
    (hne : d ≠ k) :
    lookupSha (removeSha m k) d = lookupSha m d := by
  induction m with
  | nil => rfl
  | cons e m ih =>
    unfold removeSha lookupSha at ih ⊢
    rw [List.filter_cons]
    rcases eq_or_ne e.1 k with hek | hek
    · rw [if_neg (by simp [hek])]
      rw [List.find?_cons_of_neg _
        (by simp only [hek, decide_eq_true_eq]; exact fun h => hne h.symm)]
      exact ih
    · rw [if_pos (by simp [hek])]
      rcases eq_or_ne e.1 d with hed | hed
      · rw [List.find?_cons_of_pos _ (by simp [hed]),
          List.find?_cons_of_pos _ (by simp [hed])]
      · rw [List.find?_cons_of_neg _ (by simp [hed]),
          List.find?_cons_of_neg _ (by simp [hed])]
        exact ih

theorem setLastUsed_length (l : List Poster) (i : Nat) (t : Int) :
    (setLastUsed l i t).length = l.length := by
  unfold setLastUsed
  cases l.get? i <;> simp

theorem set_get?_self : ∀ (l : List Poster) (i : Nat) (a : Poster),
    l.get? i = some a → l.set i a = l
  | [], _, _, h => by simp at h
  | p :: rest, 0, a, h => by
    have hpa : p = a := by
      have : some p = some a := h
      exact Option.some.inj this
    show a :: rest = p :: rest
    rw [hpa]
  | p :: rest, i + 1, a, h => by
    have h' : rest.get? i = some a := h
    show p :: rest.set i a = p :: rest
    rw [set_get?_self rest i a h']

theorem get?_set_self : ∀ (l : List Poster) (i : Nat) (a : Poster),
    i < l.length → (l.set i a).get? i = some a
  | [], i, a, h => absurd h (by simp)
  | p :: rest, 0, a, _ => rfl
  | p :: rest, i + 1, a, h =>
    get?_set_self rest i a (Nat.lt_of_succ_lt_succ h)

theorem setLastUsed_stable (l : List Poster) (i : Nat) (a : Poster) (t : Int)
    (hget : l.get? i = some a) (ht : a.last_used = t) :
    setLastUsed l i t = l := by
  have hstruct : { a with last_used := t } = a := by
    cases a
    cases ht
    rfl
  unfold setLastUsed
  rw [hget]
  show l.set i { a with last_used := t } = l
  rw [hstruct]
  exact set_get?_self l i a hget

theorem setLastUsed_setLastUsed (l : List Poster) (i : Nat) (t : Int) :
    setLastUsed (setLastUsed l i t) i t = setLastUsed l i t := by
  rcases hget : l.get? i with - | p
  · have h1 : setLastUsed l i t = l := by
      unfold setLastUsed
      rw [hget]
    rw [h1]
    exact h1
  · have h1 : setLastUsed l i t = l.set i { p with last_used := t } := by
      unfold setLastUsed
      rw [hget]
    have hi : i < l.length := (List.get?_eq_some.mp hget).1
    have hget2 : (l.set i { p with last_used := t }).get? i =
        some { p with last_used := t } :=
      get?_set_self l i _ hi
    rw [h1]
    exact setLastUsed_stable _ i { p with last_used := t } t hget2 rfl

/-- `argminIdx` indeed selects the entry with minimal `last_used`,
ties broken by the lowest index (`Iterator::min_by_key` semantics). -/
theorem argminIdx_spec : ∀ (l : List Poster), l ≠ [] →
    ∃ h : argminIdx l < l.length,
      (∀ j (hj : j < l.length),
        (l.get ⟨argminIdx l, h⟩).last_used ≤ (l.get ⟨j, hj⟩).last_used) ∧
      ∀ j (hj : j < argminIdx l),
        (l.get ⟨argminIdx l, h⟩).last_used <
          (l.get ⟨j, Nat.lt_trans hj h⟩).last_used := by
  intro l
  induction l with
  | nil => intro h; exact absurd rfl h
  | cons p rest ih =>
    intro _
    rcases eq_or_ne rest [] with hr | hr
    · subst hr
      refine ⟨by simp [argminIdx], ?_, ?_⟩
      · intro j hj
        have hj0 : j = 0 := by
          simpa using Nat.lt_one_iff.mp (by simpa using hj)
        subst hj0
        simp [argminIdx]
      · intro j hj
        simp [argminIdx] at hj
    · obtain ⟨hi', hmin', hfirst'⟩ := ih hr
      have hget : rest[argminIdx rest]? =
          some (rest.get ⟨argminIdx rest, hi'⟩) := by
        rw [List.getElem?_eq_getElem hi']
        rw [List.get_eq_getElem]
      have hgel : rest[argminIdx rest].last_used =
          (rest.get ⟨argminIdx rest, hi'⟩).last_used := by
        rw [List.get_eq_getElem]
      by_cases hcmp : (rest.get ⟨argminIdx rest, hi'⟩).last_used < p.last_used
      · have hval : argminIdx (p :: rest) = argminIdx rest + 1 := by
          simp [argminIdx, hget, hgel, hcmp]
        rw [hval]
        refine ⟨Nat.succ_lt_succ hi', ?_, ?_⟩
        · intro j hj
          match j with
          | 0 => simpa using le_of_lt hcmp
          | j + 1 =>
            simp only [List.get_cons_succ]
            exact hmin' j (Nat.lt_of_succ_lt_succ hj)
        · intro j hj
          match j with
          | 0 => simpa using hcmp
          | j + 1 =>
            simp only [List.get_cons_succ]
            exact hfirst' j (Nat.lt_of_succ_lt_succ hj)
      · have hval : argminIdx (p :: rest) = 0 := by
          simp [argminIdx, hget, hgel, hcmp]
        rw [hval]
        refine ⟨Nat.succ_pos _, ?_, ?_⟩
        · intro j hj
          match j with
          | 0 => simp
          | j + 1 =>
            simp only [List.get_cons_succ, List.get_cons_zero]
            exact le_trans (not_lt.mp hcmp) (hmin' j (Nat.lt_of_succ_lt_succ hj))
        · intro j hj
          exact absurd hj (Nat.not_lt_zero j)

/-- Branch equation: digest already catalogued (`Entry::Occupied`). -/
theorem tryGetOutput_occ (s : Posters) (p : PosterIn) (copyOk : Bool)
    (idx : Nat) (h : lookupSha s.by_sha256 p.hash = some idx) :
    tryGetOutput s p copyOk =
      (some ⟨idx, p.width, p.height⟩,
       { s with posters := setLastUsed s.posters idx s.now }, false) := by
  unfold tryGetOutput
  rw [h]

/-- Branch equation: new digest, catalogue not yet full. -/
theorem tryGetOutput_vac_small (s : Posters) (p : PosterIn) (copyOk : Bool)
    (h : lookupSha s.by_sha256 p.hash = none)
    (hsz : s.posters.length < 255) :
    tryGetOutput s p copyOk =
      (if copyOk then some ⟨s.posters.length, p.width, p.height⟩ else none,
       { s with
         posters := s.posters ++ [⟨s.now, p.hash⟩],
         by_sha256 := insertSha s.by_sha256 p.hash s.posters.length },
       true) := by
  unfold tryGetOutput
  rw [h]
  rw [if_pos hsz]

/-- Branch equation: new digest, catalogue full (eviction). -/
theorem tryGetOutput_vac_full (s : Posters) (p : PosterIn) (copyOk : Bool)
    (h : lookupSha s.by_sha256 p.hash = none)
    (hsz : ¬ s.posters.length < 255) :
    tryGetOutput s p copyOk =
      (if copyOk then some ⟨argminIdx s.posters, p.width, p.height⟩ else none,
       { s with
         by_sha256 :=
           removeSha (insertSha s.by_sha256 p.hash (argminIdx s.posters))
             ((s.posters.getD (argminIdx s.posters) default).sha256),
         posters := s.posters.set (argminIdx s.posters) ⟨s.now, p.hash⟩ },
       true) := by
  unfold tryGetOutput
  rw [h]
  rw [if_neg hsz]

/-- In a catalogue satisfying `InSync`, an uncatalogued digest cannot equal
the digest of any stored entry, in particular not the evicted one's. -/
theorem hash_ne_stored (s : Posters) (p : PosterIn) (hinv : InSync s)
    (hvac : lookupSha s.by_sha256 p.hash = none)
    (i : Nat) (hi : i < s.posters.length) :
    p.hash ≠ (s.posters.get ⟨i, hi⟩).sha256 := by
  intro heq
  have hg : s.posters.get? i = some (s.posters.get ⟨i, hi⟩) :=
    List.get?_eq_get hi
  have hm := hinv _ _ hg
  rw [← heq, hvac] at hm
  cases hm

/-- C1: the poster catalogue never exceeds 255 entries, and interning a new
digest into a full catalogue replaces exactly the least-recently-used entry
(ties broken by the lowest slot index), whose slot the new digest takes over,
while every other entry keeps its slot and its digest mapping. -/
theorem tryGetOutput_capacity_lru (s : Posters) (p : PosterIn) (copyOk : Bool)
    (hinv : InSync s) (hlen : s.posters.length ≤ 255) :
    ((tryGetOutput s p copyOk).2.1.posters.length ≤ 255) ∧
    (lookupSha s.by_sha256 p.hash = none → s.posters.length = 255 →
      ∃ hi : argminIdx s.posters < s.posters.length,
        (∀ j (hj : j < s.posters.length),
          (s.posters.get ⟨argminIdx s.posters, hi⟩).last_used ≤
            (s.posters.get ⟨j, hj⟩).last_used) ∧
        (∀ j (hj : j < argminIdx s.posters),
          (s.posters.get ⟨argminIdx s.posters, hi⟩).last_used <
            (s.posters.get ⟨j, Nat.lt_trans hj hi⟩).last_used) ∧
        (tryGetOutput s p copyOk).2.1.posters =
          s.posters.set (argminIdx s.posters) ⟨s.now, p.hash⟩ ∧
        lookupSha (tryGetOutput s p copyOk).2.1.by_sha256 p.hash =
          some (argminIdx s.posters) ∧
        (∀ j, j ≠ argminIdx s.posters →
          (tryGetOutput s p copyOk).2.1.posters.get? j = s.posters.get? j) ∧
        (∀ d, d ≠ p.hash →
          d ≠ (s.posters.get ⟨argminIdx s.posters, hi⟩).sha256 →
          lookupSha (tryGetOutput s p copyOk).2.1.by_sha256 d =
            lookupSha s.by_sha256 d)) := by
  constructor
  · rcases hocc : lookupSha s.by_sha256 p.hash with - | idx
    · by_cases hsz : s.posters.length < 255
      · rw [tryGetOutput_vac_small s p copyOk hocc hsz]
        simp only [List.length_append, List.length_cons, List.length_nil]
        omega
      · rw [tryGetOutput_vac_full s p copyOk hocc hsz]
        simpa using hlen
    · rw [tryGetOutput_occ s p copyOk idx hocc]
      simpa [setLastUsed_length] using hlen
  · intro hvac hfull
    have hne : s.posters ≠ [] := by
      intro h0
      rw [h0] at hfull
      cases hfull
    obtain ⟨hi, hmin, hfirst⟩ := argminIdx_spec s.posters hne
    have hsz : ¬ s.posters.length < 255 := by omega
    have heq := tryGetOutput_vac_full s p copyOk hvac hsz
    have hgd : s.posters.getD (argminIdx s.posters) default =
        s.posters.get ⟨argminIdx s.posters, hi⟩ :=
      List.getD_eq_get s.posters default hi
    have hne_ev : p.hash ≠ (s.posters.get ⟨argminIdx s.posters, hi⟩).sha256 :=
      hash_ne_stored s p hinv hvac _ hi
    refine ⟨hi, hmin, hfirst, ?_, ?_, ?_, ?_⟩
    · rw [heq]
    · rw [heq]
      show lookupSha (removeSha (insertSha s.by_sha256 p.hash
        (argminIdx s.posters)) _) p.hash = some (argminIdx s.posters)
      rw [hgd]
      rw [lookupSha_remove_ne _ _ _ hne_ev]
      exact lookupSha_insert_self s.by_sha256 p.hash (argminIdx s.posters)
    · intro j hj
      rw [heq]
      exact List.get?_set_ne _ s.posters (Ne.symm hj)
    · intro d hd hdev
      rw [heq]
      show lookupSha (removeSha (insertSha s.by_sha256 p.hash
        (argminIdx s.posters)) _) d = lookupSha s.by_sha256 d
      rw [hgd]
      rw [lookupSha_remove_ne _ _ _ hdev]
      exact lookupSha_insert_ne s.by_sha256 p.hash (argminIdx s.posters) d hd

/-- If a digest is catalogued and its entry's timestamp is already `now`,
`try_get_output` is a no-op apart from returning the slot: no state change
and no file copy attempt. -/
theorem tryGetOutput_noop (s : Posters) (h : Digest) (idx : Nat)
    (hlk : lookupSha s.by_sha256 h = some idx)
    (hstable : setLastUsed s.posters idx s.now = s.posters)
    (p' : PosterIn) (ck' : Bool) (hh : p'.hash = h) :
    tryGetOutput s p' ck' = (some ⟨idx, p'.width, p'.height⟩, s, false) := by
  have hlk' : lookupSha s.by_sha256 p'.hash = some idx := by
    rw [hh]
    exact hlk
  rw [tryGetOutput_occ s p' ck' idx hlk']
  rw [hstable]

/-- C3: interning the same digest twice returns the same slot both times;
the second call leaves the catalogue state unchanged (it only re-writes the
entry's last-used timestamp, which is already `now`) and attempts no file
copy. -/
theorem tryGetOutput_idempotent (s : Posters) (p p' : PosterIn)
    (ck ck' : Bool) (o : PosterOut) (hinv : InSync s) (hh : p'.hash = p.hash)
    (h1 : (tryGetOutput s p ck).1 = some o) :
    (tryGetOutput (tryGetOutput s p ck).2.1 p' ck').1 =
      some ⟨o.number, p'.width, p'.height⟩ ∧
    (tryGetOutput (tryGetOutput s p ck).2.1 p' ck').2.1 =
      (tryGetOutput s p ck).2.1 ∧
    (tryGetOutput (tryGetOutput s p ck).2.1 p' ck').2.2 = false := by
  rcases hocc : lookupSha s.by_sha256 p.hash with - | idx
  · -- first call interned a new digest
    by_cases hsz : s.posters.length < 255
    · have heq := tryGetOutput_vac_small s p ck hocc hsz
      rw [heq] at h1
      rcases ck with - | -
      · simp at h1
      · have ho : o = ⟨s.posters.length, p.width, p.height⟩ := by
          simpa using h1.symm
        rw [heq]
        have hnoop := tryGetOutput_noop
          { s with
            posters := s.posters ++ [⟨s.now, p.hash⟩],
            by_sha256 := insertSha s.by_sha256 p.hash s.posters.length }
          p.hash s.posters.length
          (lookupSha_insert_self s.by_sha256 p.hash s.posters.length)
          (setLastUsed_stable _ _ ⟨s.now, p.hash⟩ _
            (List.get?_concat_length s.posters ⟨s.now, p.hash⟩) rfl)
          p' ck' hh
        rw [hnoop, ho]
        exact ⟨rfl, rfl, rfl⟩
    · have heq := tryGetOutput_vac_full s p ck hocc hsz
      have hne : s.posters ≠ [] := by
        intro h0
        rw [h0] at hsz
        exact hsz (by simp)
      obtain ⟨hi, -, -⟩ := argminIdx_spec s.posters hne
      have hgd : s.posters.getD (argminIdx s.posters) default =
          s.posters.get ⟨argminIdx s.posters, hi⟩ :=
        List.getD_eq_get s.posters default hi
      have hne_ev : p.hash ≠
          (s.posters.get ⟨argminIdx s.posters, hi⟩).sha256 :=
        hash_ne_stored s p hinv hocc _ hi
      rw [heq] at h1
      rcases ck with - | -
      · simp at h1
      · have ho : o = ⟨argminIdx s.posters, p.width, p.height⟩ := by
          simpa using h1.symm
        rw [heq]
        have hlk2 : lookupSha
            (removeSha (insertSha s.by_sha256 p.hash (argminIdx s.posters))
              ((s.posters.getD (argminIdx s.posters) default).sha256))
            p.hash = some (argminIdx s.posters) := by
          rw [hgd, lookupSha_remove_ne _ _ _ hne_ev]
          exact lookupSha_insert_self s.by_sha256 p.hash (argminIdx s.posters)
        have hnoop := tryGetOutput_noop
          { s with
            by_sha256 :=
              removeSha (insertSha s.by_sha256 p.hash (argminIdx s.posters))
                ((s.posters.getD (argminIdx s.posters) default).sha256),
            posters := s.posters.set (argminIdx s.posters) ⟨s.now, p.hash⟩ }
          p.hash (argminIdx s.posters) hlk2
          (setLastUsed_stable _ _ ⟨s.now, p.hash⟩ _
            (get?_set_self s.posters (argminIdx s.posters) ⟨s.now, p.hash⟩ hi)
            rfl)
          p' ck' hh
        rw [hnoop, ho]
        exact ⟨rfl, rfl, rfl⟩
  · -- first call found the digest already catalogued
    have heq := tryGetOutput_occ s p ck idx hocc
    rw [heq] at h1
    have ho : o = ⟨idx, p.width, p.height⟩ := by
      simpa using h1.symm
    rw [heq]
    have hnoop := tryGetOutput_noop
      { s with posters := setLastUsed s.posters idx s.now }
      p.hash idx hocc
      (setLastUsed_setLastUsed s.posters idx s.now)
      p' ck' hh
    rw [hnoop, ho]
    exact ⟨rfl, rfl, rfl⟩

/-- C10: when the file copy fails while interning a new digest, the call
returns no poster reference, yet the catalogue has already been mutated:
the new digest is in the entry vector and in the digest-to-slot map, and if
the catalogue was full the evicted entry's digest is gone from the map. -/
theorem tryGetOutput_copyFail (s : Posters) (p : PosterIn)
    (hinv : InSync s) (hvac : lookupSha s.by_sha256 p.hash = none)
    (hlen : s.posters.length ≤ 255) :
    (tryGetOutput s p false).1 = none ∧
    (tryGetOutput s p false).2.1.posters.get?
      (if s.posters.length < 255 then s.posters.length
       else argminIdx s.posters) = some ⟨s.now, p.hash⟩ ∧
    lookupSha (tryGetOutput s p false).2.1.by_sha256 p.hash =
      some (if s.posters.length < 255 then s.posters.length
            else argminIdx s.posters) ∧
    (s.posters.length = 255 →
      lookupSha (tryGetOutput s p false).2.1.by_sha256
        ((s.posters.getD (argminIdx s.posters) default).sha256) = none) := by
  by_cases hsz : s.posters.length < 255
  · have heq := tryGetOutput_vac_small s p false hvac hsz
    rw [heq]
    simp only [if_pos hsz]
    refine ⟨rfl, ?_, ?_, ?_⟩
    · exact List.get?_concat_length s.posters ⟨s.now, p.hash⟩
    · exact lookupSha_insert_self s.by_sha256 p.hash s.posters.length
    · intro hfull
      omega
  · have heq := tryGetOutput_vac_full s p false hvac hsz
    have hne : s.posters ≠ [] := by
      intro h0
      rw [h0] at hsz
      exact hsz (by simp)
    obtain ⟨hi, -, -⟩ := argminIdx_spec s.posters hne
    have hgd : s.posters.getD (argminIdx s.posters) default =
        s.posters.get ⟨argminIdx s.posters, hi⟩ :=
      List.getD_eq_get s.posters default hi
    have hne_ev : p.hash ≠
        (s.posters.get ⟨argminIdx s.posters, hi⟩).sha256 :=
      hash_ne_stored s p hinv hvac _ hi
    rw [heq]
    simp only [if_neg hsz]
    refine ⟨rfl, ?_, ?_, ?_⟩
    · exact get?_set_self s.posters (argminIdx s.posters) ⟨s.now, p.hash⟩ hi
    · rw [hgd, lookupSha_remove_ne _ _ _ hne_ev]
      exact lookupSha_insert_self s.by_sha256 p.hash (argminIdx s.posters)
    · intro _
      exact lookupSha_remove_self _ _

/-- Witness for C1 at a concrete state. -/
theorem tryGetOutput_capacity_lru_witness :
    (tryGetOutput ⟨[], [], 0⟩ ⟨1, 1, [0]⟩ true).2.1.posters.length ≤ 255 :=
  (tryGetOutput_capacity_lru ⟨[], [], 0⟩ ⟨1, 1, [0]⟩ true (by decide)
    (by decide)).1

/-- Witness for C3 at a concrete state. -/
theorem tryGetOutput_idempotent_witness :
    (tryGetOutput (tryGetOutput ⟨[], [], 0⟩ ⟨1, 1, [0]⟩ true).2.1
      ⟨2, 3, [0]⟩ false).1 = some ⟨0, 2, 3⟩ :=
  (tryGetOutput_idempotent ⟨[], [], 0⟩ ⟨1, 1, [0]⟩ ⟨2, 3, [0]⟩ true false
    ⟨0, 1, 1⟩ (by decide) rfl (by decide)).1

/-- Witness for C10 at a concrete state. -/
theorem tryGetOutput_copyFail_witness :
    (tryGetOutput ⟨[], [], 0⟩ ⟨1, 1, [0]⟩ false).1 = none :=
  (tryGetOutput_copyFail ⟨[], [], 0⟩ ⟨1, 1, [0]⟩ (by decide) (by decide)
    (by decide)).1

/-! ## Diagnostics and the fatal-error counter
(`src/error.rs`, `Handler::debug` in `src/main.rs` lines 294-306) -/

/-- `miette::Severity` (only the levels this program uses matter). -/
inductive Severity
  | advice
  | warning
  | error
  deriving DecidableEq, Repr

/-- The diagnostics the program can emit. -/
inductive Diag
  | eventParseError
  | stateParseError
  | missingTimeZone
  | imageTooLarge
  | multiplePosters
  | confirmedOutOfRange
  | canceledOutOfRange
  | posterOpenFailed
  | posterProbeFailed
  | posterReadFailed
  | posterCopyFailed
  | midnightStartMissing
  | midnightEndMissing
  deriving DecidableEq, Repr

/-- The `#[diagnostic(severity("warning"))]` attributes in `src/error.rs`:
only `MultiplePosters`, `ConfirmedOutOfRange` and `CanceledOutOfRange` carry
one; every other diagnostic (including `ImageTooLarge`, lines 91-98) declares
no severity. -/
def declaredSeverity : Diag → Option Severity
  | .multiplePosters => some .warning
  | .confirmedOutOfRange => some .warning
  | .canceledOutOfRange => some .warning
  | _ => none

/-- `Handler::debug` (`src/main.rs` lines 294-306): the counter is bumped
exactly when `error.severity().unwrap_or(Severity::Error)` is `Error`. -/
def handlerIncrements (d : Diag) : Bool :=
  decide ((declaredSeverity d).getD Severity.error = Severity.error)

/-- The value of the `errors` counter after a run that printed `ds`. -/
def errorCount (ds : List Diag) : Nat :=
  (ds.filter handlerIncrements).length

/-- `main` (`src/main.rs` line 217): the two output artifacts are written
only when the counter is zero. -/
def outputsWritten (ds : List Diag) : Bool :=
  errorCount ds == 0

/-- `try_load_poster` (`src/main.rs` lines 645-698).  `openOk` models
`File::open`, `probeOk` models `imagesize::reader_size`, `readOk` the
seek-and-hash step; `width`/`height` are the probed dimensions. -/
def tryLoadPoster (openOk probeOk : Bool) (width height : Nat)
    (readOk : Bool) (hash : Digest) : Option PosterIn × List Diag :=
  if !openOk then (none, [Diag.posterOpenFailed])
  else if !probeOk then (none, [Diag.posterProbeFailed])
  else if 2048 < width ∨ 2048 < height then (none, [Diag.imageTooLarge])
  else if !readOk then (none, [Diag.posterReadFailed])
  else (some ⟨width, height, hash⟩, [])

/-- C2 counterexample: on a 4096x1024 image the `ImageTooLarge` diagnostic
is emitted and the poster dropped, but the diagnostic declares no severity,
so the handler counts it as a fatal error and the output artifacts are not
written -- contradicting the claim that the counter is not incremented and
the outputs are still written. -/
theorem imageTooLarge_fatal_counterexample :
    tryLoadPoster true true 4096 1024 true [0] =
      (none, [Diag.imageTooLarge]) ∧
    declaredSeverity Diag.imageTooLarge = none ∧
    handlerIncrements Diag.imageTooLarge = true ∧
    outputsWritten [Diag.imageTooLarge] = false := by
  decide

/-- C2 (amended): an oversized poster image (width or height over 2048) is
rejected with an `ImageTooLarge` diagnostic and the run continues with the
event emitted without that poster; but the diagnostic declares no severity,
so the fatal-error counter is incremented and the output artifacts are not
written. -/
theorem imageTooLarge_rejection (width height : Nat) (readOk : Bool)
    (hash : Digest) (hw : 2048 < width ∨ 2048 < height) :
    tryLoadPoster true true width height readOk hash =
      (none, [Diag.imageTooLarge]) ∧
    handlerIncrements Diag.imageTooLarge = true ∧
    (∀ ds : List Diag, Diag.imageTooLarge ∈ ds →
      outputsWritten ds = false) := by
  refine ⟨?_, rfl, ?_⟩
  · unfold tryLoadPoster
    simp only [Bool.not_true, Bool.false_eq_true, if_false]
    rw [if_pos hw]
  · intro ds hmem
    have hmem2 : Diag.imageTooLarge ∈ ds.filter handlerIncrements :=
      List.mem_filter.mpr ⟨hmem, rfl⟩
    have hlen : 0 < (ds.filter handlerIncrements).length :=
      List.length_pos.mpr (List.ne_nil_of_mem hmem2)
    unfold outputsWritten errorCount
    exact beq_eq_false_iff_ne.mpr (by omega)

/-- Witness for the amended C2 theorem. -/
theorem imageTooLarge_rejection_witness :
    tryLoadPoster true true 4096 1024 true [0] =
      (none, [Diag.imageTooLarge]) :=
  (imageTooLarge_rejection 4096 1024 true [0] (Or.inl (by decide))).1

/-! ## Zone transition tables (`src/time.rs`, `collect_zones` lines 79-109)

A zone's precomputed transition history is the list
`[(i64::MIN, first)] ++ rest` of `(start instant, total offset in seconds)`
pairs produced by the external `parse_zoneinfo` crate; `collect_zones`
post-processes it.  `chrono` timestamps have no leap seconds, so adding
`Days::new(365 * 5)` to a UTC instant adds exactly `1825 * 86400` to the
timestamp. -/

def i64Min : Int := -9223372036854775808

/-- `output::Rule` (`src/output.rs` lines 117-123). -/
structure Rule where
  start : Option Int
  offset : Option Int
  deriving DecidableEq, Repr

/-- The per-span output mapping (`src/time.rs` lines 98-103):
the start is kept only when it lies strictly after `now`, and the offset
(integer minutes, Rust `i64` division truncating toward zero) is kept only
when non-zero and representable as an `i16`. -/
def mkRule (now_ts : Int) (s : Int × Int) : Rule :=
  { start := if now_ts < s.1 then some s.1 else none,
    offset :=
      let o := Int.div s.2 60
      if o ≠ 0 ∧ (-32768 ≤ o ∧ o ≤ 32767) then some o else none }

/-- Index of the first span whose start equals `key`, if any. -/
def exactIdx : List (Int × Int) → Int → Option Nat
  | [], _ => none
  | s :: rest, key =>
    if s.1 = key then some 0 else (exactIdx rest key).map (· + 1)

/-- `spans.binary_search_by_key(&now_ts, |(start, _)| *start)`
(`src/time.rs` lines 87-89) followed by `unwrap_or_else(|i| i.saturating_sub(1))`,
modelled for the strictly-sorted lists the zone table produces: the index of
the exact match if one exists, otherwise the insertion point (the number of
spans with start below the key) minus one, saturating at zero. -/
def searchIdx (spans : List (Int × Int)) (key : Int) : Nat :=
  match exactIdx spans key with
  | some i => i
  | none => spans.countP (fun s => decide (s.1 < key)) - 1

/-- The body of the per-zone loop in `collect_zones` (`src/time.rs` lines
83-104): locate the span in effect at `now`, drop everything before it,
drop spans starting at or after `now + 1825 days`, and map the rest to
output rules. -/
def collectZoneRules (now_ts : Int) (spans : List (Int × Int)) : List Rule :=
  let current := searchIdx spans now_ts
  let dropped := spans.drop current
  let retained := dropped.filter (fun s => decide (s.1 < now_ts + 1825 * 86400))
  retained.map (mkRule now_ts)

/-- `[(i64::MIN, &timespans.first)]` chained with `timespans.rest`
(`src/time.rs` lines 83-86). -/
def zoneSpans (first : Int) (rest : List (Int × Int)) : List (Int × Int) :=
  (i64Min, first) :: rest

theorem exactIdx_none_spec : ∀ (l : List (Int × Int)) (key : Int),
    exactIdx l key = none → ∀ s ∈ l, s.1 ≠ key
  | [], _, _, s, hs => by simp at hs
  | e :: rest, key, h, s, hs => by
    unfold exactIdx at h
    by_cases he : e.1 = key
    · rw [if_pos he] at h
      cases h
    · rw [if_neg he] at h
      have hnone : exactIdx rest key = none := by
        rcases hr : exactIdx rest key with - | i
        · rfl
        · rw [hr] at h
          simp at h
      rcases List.mem_cons.mp hs with hs | hs
      · rw [hs]
        exact he
      · exact exactIdx_none_spec rest key hnone s hs

theorem exactIdx_some_spec : ∀ (l : List (Int × Int)) (key : Int) (i : Nat),
    exactIdx l key = some i →
    ∃ h : i < l.length, (l.get ⟨i, h⟩).1 = key
  | [], _, _, h => by cases h
  | e :: rest, key, i, h => by
    unfold exactIdx at h
    by_cases he : e.1 = key
    · rw [if_pos he] at h
      have h0 : (0 : Nat) = i := Option.some.inj h
      subst h0
      exact ⟨Nat.succ_pos _, he⟩
    · rw [if_neg he] at h
      rcases hr : exactIdx rest key with - | k
      · rw [hr] at h
        cases h
      · rw [hr] at h
        have hik : k + 1 = i := by simpa using h
        subst hik
        obtain ⟨hk, hkey⟩ := exactIdx_some_spec rest key k hr
        exact ⟨Nat.succ_lt_succ hk, hkey⟩

/-- In a strictly sorted span list, the spans with start below `key` are
exactly those at indices below `countP`. -/
theorem sorted_countP_iff (l : List (Int × Int)) (key : Int)
    (hsort : l.Pairwise (fun a b => a.1 < b.1)) :
    ∀ j (hj : j < l.length),
      (j < l.countP (fun s => decide (s.1 < key)) ↔
        (l.get ⟨j, hj⟩).1 < key) := by
  induction l with
  | nil =>
    intro j hj
    simp at hj
  | cons s rest ih =>
    rw [List.pairwise_cons] at hsort
    obtain ⟨hhead, htail⟩ := hsort
    intro j hj
    rw [List.countP_cons]
    by_cases hs : s.1 < key
    · rw [if_pos (by simpa using hs)]
      match j with
      | 0 =>
        constructor
        · intro _
          exact hs
        · intro _
          omega
      | k + 1 =>
        have hik := ih htail k (Nat.lt_of_succ_lt_succ hj)
        constructor
        · intro h0
          exact hik.mp (by omega)
        · intro h0
          have h0' : (rest.get ⟨k, Nat.lt_of_succ_lt_succ hj⟩).1 < key := h0
          have := hik.mpr h0'
          omega
    · rw [if_neg (by simpa using hs)]
      have hz : rest.countP (fun s => decide (s.1 < key)) = 0 := by
        rw [List.countP_eq_zero]
        intro a ha
        have hgt := hhead a ha
        simp only [decide_eq_true_eq]
        omega
      rw [hz]
      match j with
      | 0 =>
        constructor
        · intro h0
          exact absurd h0 (by omega)
        · intro h0
          exact absurd h0 hs
      | k + 1 =>
        constructor
        · intro h0
          exact absurd h0 (by omega)
        · intro h0
          have h0' : (rest.get ⟨k, Nat.lt_of_succ_lt_succ hj⟩).1 < key := h0
          have hmem : rest.get ⟨k, Nat.lt_of_succ_lt_succ hj⟩ ∈ rest :=
            List.get_mem rest _ _
          have hgt := hhead _ hmem
          omega

/-- Characterization of `searchIdx` on a strictly sorted list whose head
start lies below the key: it returns the index of the span with the
greatest start at or below the key. -/
theorem searchIdx_spec (l : List (Int × Int)) (key : Int)
    (hsort : l.Pairwise (fun a b => a.1 < b.1))
    (h0 : 0 < l.length) (hfirst : (l.get ⟨0, h0⟩).1 < key) :
    ∃ hi : searchIdx l key < l.length,
      (l.get ⟨searchIdx l key, hi⟩).1 ≤ key ∧
      ∀ j (hj : j < l.length), (l.get ⟨j, hj⟩).1 ≤ key → j ≤ searchIdx l key := by
  have hpg := List.pairwise_iff_get.mp hsort
  rcases hex : exactIdx l key with - | k
  · -- no exact match: insertion point minus one
    have hcount := sorted_countP_iff l key hsort
    have hone : 0 < l.countP (fun s => decide (s.1 < key)) :=
      (hcount 0 h0).mpr hfirst
    have hle : l.countP (fun s => decide (s.1 < key)) ≤ l.length :=
      List.countP_le_length _
    have hidx : searchIdx l key =
        l.countP (fun s => decide (s.1 < key)) - 1 := by
      unfold searchIdx
      rw [hex]
    have hi : searchIdx l key < l.length := by omega
    refine ⟨hi, ?_, ?_⟩
    · have := (hcount (searchIdx l key) hi).mp (by omega)
      omega
    · intro j hj hjle
      have hne := exactIdx_none_spec l key hex _ (List.get_mem l j hj)
      have hlt : (l.get ⟨j, hj⟩).1 < key := lt_of_le_of_ne hjle hne
      have := (hcount j hj).mpr hlt
      omega
  · -- exact match
    obtain ⟨hk, hkey⟩ := exactIdx_some_spec l key k hex
    have hidx : searchIdx l key = k := by
      unfold searchIdx
      rw [hex]
    rw [hidx]
    refine ⟨hk, le_of_eq hkey, ?_⟩
    intro j hj hjle
    by_contra hgt
    push_neg at hgt
    have := hpg ⟨k, hk⟩ ⟨j, hj⟩ hgt
    simp only at this
    rw [hkey] at this
    omega

theorem collectZoneRules_eq (now_ts : Int) (spans : List (Int × Int)) :
    collectZoneRules now_ts spans =
      ((spans.drop (searchIdx spans now_ts)).filter
        (fun s => decide (s.1 < now_ts + 1825 * 86400))).map
        (mkRule now_ts) := rfl

theorem mkRule_start_some (now_ts : Int) (a : Int × Int) (u : Int)
    (h : (mkRule now_ts a).start = some u) : u = a.1 ∧ now_ts < a.1 := by
  simp only [mkRule] at h
  by_cases hc : now_ts < a.1
  · rw [if_pos hc] at h
    exact ⟨(Option.some.inj h).symm, hc⟩
  · rw [if_neg hc] at h
    cases h

/-- C4: for a zone's strictly sorted transition history and a fixed `now`,
the emitted rule sequence is nonempty; its first rule is the span in effect
at `now` (the span whose start is the greatest value at or below `now`) and
carries no start bound; every later rule carries a start strictly between
`now` and `now + 1825` days; and the sequence is sorted ascending by start
instant. -/
theorem collectZoneRules_sorted_bounded (first_off : Int)
    (rest : List (Int × Int)) (now_ts : Int)
    (hsort : (zoneSpans first_off rest).Pairwise (fun a b => a.1 < b.1))
    (hnow : i64Min < now_ts) :
    collectZoneRules now_ts (zoneSpans first_off rest) ≠ [] ∧
    (∃ sp ∈ zoneSpans first_off rest, sp.1 ≤ now_ts ∧
      (∀ sq ∈ zoneSpans first_off rest, sq.1 ≤ now_ts → sq.1 ≤ sp.1) ∧
      (collectZoneRules now_ts (zoneSpans first_off rest)).head? =
        some (mkRule now_ts sp)) ∧
    (∀ r, (collectZoneRules now_ts (zoneSpans first_off rest)).head? =
      some r → r.start = none) ∧
    (∀ r ∈ (collectZoneRules now_ts (zoneSpans first_off rest)).tail,
      ∃ v, r.start = some v ∧ now_ts < v ∧ v < now_ts + 1825 * 86400) ∧
    (collectZoneRules now_ts (zoneSpans first_off rest)).Pairwise
      (fun a b => ∀ u v, a.start = some u → b.start = some v → u < v) := by
  have h0 : 0 < (zoneSpans first_off rest).length := Nat.succ_pos _
  have hfirst : ((zoneSpans first_off rest).get ⟨0, h0⟩).1 < now_ts := hnow
  obtain ⟨hi, hile, hmax⟩ :=
    searchIdx_spec (zoneSpans first_off rest) now_ts hsort h0 hfirst
  have hpg := List.pairwise_iff_get.mp hsort
  have hdrop : (zoneSpans first_off rest).drop
      (searchIdx (zoneSpans first_off rest) now_ts) =
      (zoneSpans first_off rest).get
        ⟨searchIdx (zoneSpans first_off rest) now_ts, hi⟩ ::
      (zoneSpans first_off rest).drop
        (searchIdx (zoneSpans first_off rest) now_ts + 1) :=
    List.drop_eq_get_cons hi
  have hpass : decide (((zoneSpans first_off rest).get
      ⟨searchIdx (zoneSpans first_off rest) now_ts, hi⟩).1 <
      now_ts + 1825 * 86400) = true := by
    simp only [decide_eq_true_eq]
    omega
  have hout : collectZoneRules now_ts (zoneSpans first_off rest) =
      mkRule now_ts ((zoneSpans first_off rest).get
        ⟨searchIdx (zoneSpans first_off rest) now_ts, hi⟩) ::
      (((zoneSpans first_off rest).drop
          (searchIdx (zoneSpans first_off rest) now_ts + 1)).filter
        (fun s => decide (s.1 < now_ts + 1825 * 86400))).map
        (mkRule now_ts) := by
    rw [collectZoneRules_eq, hdrop, List.filter_cons, if_pos hpass,
      List.map_cons]
  refine ⟨?_, ?_, ?_, ?_, ?_⟩
  · rw [hout]
    intro h
    cases h
  · refine ⟨(zoneSpans first_off rest).get
      ⟨searchIdx (zoneSpans first_off rest) now_ts, hi⟩,
      List.get_mem _ _ _, hile, ?_, ?_⟩
    · intro sq hsq hle
      obtain ⟨⟨j, hj⟩, hje⟩ := List.mem_iff_get.mp hsq
      rw [← hje] at hle ⊢
      have hji := hmax j hj hle
      rcases Nat.lt_or_ge j (searchIdx (zoneSpans first_off rest) now_ts)
        with hlt | hge
      · exact le_of_lt (hpg ⟨j, hj⟩ ⟨_, hi⟩ hlt)
      · have : j = searchIdx (zoneSpans first_off rest) now_ts := by omega
        subst this
        exact le_refl _
    · rw [hout]
      rfl
  · intro r hr
    rw [hout] at hr
    have hre : mkRule now_ts ((zoneSpans first_off rest).get
        ⟨searchIdx (zoneSpans first_off rest) now_ts, hi⟩) = r :=
      Option.some.inj hr
    rw [← hre]
    simp only [mkRule]
    rw [if_neg (by omega)]
  · intro r hr
    rw [hout] at hr
    simp only [List.tail_cons] at hr
    rw [List.mem_map] at hr
    obtain ⟨s, hsf, hsr⟩ := hr
    rw [List.mem_filter] at hsf
    obtain ⟨hsd, hsp⟩ := hsf
    obtain ⟨n, hn⟩ := List.mem_iff_get?.mp hsd
    rw [List.get?_drop] at hn
    obtain ⟨hnl, hns⟩ := List.get?_eq_some.mp hn
    have hsgt : now_ts < s.1 := by
      by_contra hle
      push_neg at hle
      have := hmax _ hnl (by rw [hns]; exact hle)
      omega
    have hslim : s.1 < now_ts + 1825 * 86400 := by
      simpa using hsp
    refine ⟨s.1, ?_, hsgt, hslim⟩
    rw [← hsr]
    simp only [mkRule]
    rw [if_pos hsgt]
  · rw [collectZoneRules_eq]
    apply List.pairwise_map.mpr
    have hsub : List.Sublist
        (((zoneSpans first_off rest).drop
          (searchIdx (zoneSpans first_off rest) now_ts)).filter
          (fun s => decide (s.1 < now_ts + 1825 * 86400)))
        (zoneSpans first_off rest) :=
      (List.filter_sublist _).trans (List.drop_sublist _ _)
    have hp := List.Pairwise.sublist hsub hsort
    refine hp.imp ?_
    intro a b hab u v hu hv
    obtain ⟨hua, -⟩ := mkRule_start_some now_ts a u hu
    obtain ⟨hvb, -⟩ := mkRule_start_some now_ts b v hv
    omega

/-- Witness for C4 at a concrete zone history. -/
theorem collectZoneRules_sorted_bounded_witness :
    collectZoneRules 1000 (zoneSpans 0 [(100, 3600), (99999999999, 7200)]) ≠
      [] :=
  (collectZoneRules_sorted_bounded 0 [(100, 3600), (99999999999, 7200)] 1000
    (by decide) (by decide)).1

/-! ## Event occurrence computation
(`Event::get_time_for_day`, `src/main.rs` lines 319-350;
`input::EventDays` and `default_days`, `src/input.rs` lines 40-50, 78-104)

Calendar dates are modelled as `Int` days since 1970-01-01 (a Thursday);
times of day as `Int` minutes.  `date.and_time(time).and_local_timezone(tz)
.earliest()` is a `chrono`/`chrono-tz` computation, abstracted as the
function argument `earliest`. -/

inductive Weekday
  | monday
  | tuesday
  | wednesday
  | thursday
  | friday
  | saturday
  | sunday
  deriving DecidableEq, Repr

/-- `chrono::NaiveDate::weekday` for a date counted in days from
1970-01-01, which was a Thursday. -/
def dateWeekday (d : Int) : Weekday :=
  match ((d + 3).emod 7).toNat with
  | 0 => .monday
  | 1 => .tuesday
  | 2 => .wednesday
  | 3 => .thursday
  | 4 => .friday
  | 5 => .saturday
  | _ => .sunday

/-- `input::EventDay` (`src/input.rs` lines 97-104), restricted to the two
fields `get_time_for_day` and `prepare_event` consult; the nested `info`
record plays no role in occurrence computation. -/
structure EventDay where
  start : Option Int
  duration : Option Int
  deriving DecidableEq, Repr

/-- `input::EventDays` (`src/input.rs` lines 78-95). -/
structure EventDays where
  monday : Option EventDay
  tuesday : Option EventDay
  wednesday : Option EventDay
  thursday : Option EventDay
  friday : Option EventDay
  saturday : Option EventDay
  sunday : Option EventDay
  deriving DecidableEq, Repr

/-- `default_days` (`src/input.rs` lines 40-50): every weekday enabled with
a default (empty) entry, i.e. no start or duration override. -/
def default_days : EventDays :=
  { monday := some ⟨none, none⟩
    tuesday := some ⟨none, none⟩
    wednesday := some ⟨none, none⟩
    thursday := some ⟨none, none⟩
    friday := some ⟨none, none⟩
    saturday := some ⟨none, none⟩
    sunday := some ⟨none, none⟩ }

/-- The weekday dispatch in `get_time_for_day` (`src/main.rs` lines
335-343). -/
def dayFor (days : EventDays) : Weekday → Option EventDay
  | .monday => days.monday
  | .tuesday => days.tuesday
  | .wednesday => days.wednesday
  | .thursday => days.thursday
  | .friday => days.friday
  | .saturday => days.saturday
  | .sunday => days.sunday

/-- The scheduling-relevant fields of `input::Event`
(`src/input.rs` lines 13-34). -/
structure EventSchedule where
  start_date : Option Int
  end_date : Option Int
  start : Int
  days : EventDays
  deriving DecidableEq, Repr

/-- `date < start_date` check (`src/main.rs` lines 325-329). -/
def beforeStart (e : EventSchedule) (date : Int) : Bool :=
  match e.start_date with
  | some sd => decide (date < sd)
  | none => false

/-- `end_date < date` check (`src/main.rs` lines 330-334). -/
def afterEnd (e : EventSchedule) (date : Int) : Bool :=
  match e.end_date with
  | some ed => decide (ed < date)
  | none => false

/-- `Event::get_time_for_day` (`src/main.rs` lines 319-350).  The Rust
function returns `Result<Option<..>>` but never returns `Err`, so it is
modelled as `Option`. -/
def getTimeForDay (e : EventSchedule) (earliest : Int → Int → Option Int)
    (date : Int) (force : Bool) : Option Int :=
  if beforeStart e date then none
  else if afterEnd e date then none
  else
    let day := dayFor e.days (dateWeekday date)
    if !force && day.isNone then none
    else earliest date ((day.bind (fun d => d.start)).getD e.start)

/-- C5: for a date within the event's start/end bounds, `get_time_for_day`
with `force = false` returns none when the date's weekday has no day entry,
and when the weekday has a default entry (no start override) it returns the
earliest valid local instant of the date combined with the event's base
start time (none when no valid local instant exists). -/
theorem getTimeForDay_not_forced (e : EventSchedule)
    (earliest : Int → Int → Option Int) (date : Int)
    (hsd : ∀ sd, e.start_date = some sd → sd ≤ date)
    (hed : ∀ ed, e.end_date = some ed → date ≤ ed) :
    (dayFor e.days (dateWeekday date) = none →
      getTimeForDay e earliest date false = none) ∧
    (∀ d, dayFor e.days (dateWeekday date) = some d → d.start = none →
      getTimeForDay e earliest date false = earliest date e.start) := by
  have hbs : beforeStart e date = false := by
    unfold beforeStart
    rcases hc : e.start_date with - | sd
    · rfl
    · have := hsd sd hc
      simp only [decide_eq_false_iff_not]
      omega
  have hae : afterEnd e date = false := by
    unfold afterEnd
    rcases hc : e.end_date with - | ed
    · rfl
    · have := hed ed hc
      simp only [decide_eq_false_iff_not]
      omega
  constructor
  · intro hday
    unfold getTimeForDay
    rw [hbs, hae]
    simp only [Bool.false_eq_true, if_false, hday]
    rfl
  · intro d hday hstart
    unfold getTimeForDay
    rw [hbs, hae]
    simp only [Bool.false_eq_true, if_false, hday]
    simp [hstart]

/-- Witness for C5: an event with default days and base start 600 minutes,
on 1970-01-06 (a Tuesday). -/
theorem getTimeForDay_not_forced_witness :
    getTimeForDay ⟨none, none, 600, default_days⟩
      (fun d t => some (d * 1440 + t)) 5 false = some 7800 :=
  (getTimeForDay_not_forced ⟨none, none, 600, default_days⟩
    (fun d t => some (d * 1440 + t)) 5
    (by intro sd h; cases h) (by intro ed h; cases h)).2
    ⟨none, none⟩ rfl rfl

/-! ## Confirmed/canceled date filtering and start/end bound resolution
(`prepare_event`, `src/main.rs` lines 464-540) -/

/-- `DateSet` (`src/input.rs` lines 179-184 and `src/output.rs` lines
125-130 have the same shape). -/
inductive DateSet
  | all (b : Bool)
  | dates (l : List Int)
  deriving DecidableEq, Repr

/-- The filtering loop body (`src/main.rs` lines 467-482 for confirmed,
491-508 for canceled): a date is kept when `get_time_for_day` yields an
instant strictly after `now`. -/
def filterFutureDates (getTime : Int → Option Int) (now : Int)
    (ds : List Int) : List Int :=
  ds.filter (fun d =>
    match getTime d with
    | some t => decide (now < t)
    | none => false)

/-- The per-list conversion in `prepare_event`: boolean forms pass through
unchanged; a date list is filtered (emitting one out-of-range warning per
date without an occurrence) and collapsed to `All(false)` when the filtered
list is empty (`src/main.rs` lines 464-516). -/
def convertDateSet (getTime : Int → Option Int) (now : Int) (warn : Diag) :
    DateSet → DateSet × List Diag
  | .all b => (.all b, [])
  | .dates ds =>
    let future := filterFutureDates getTime now ds
    let warns := (ds.filter (fun d => (getTime d).isNone)).map (fun _ => warn)
    (if future.isEmpty then .all false else .dates future, warns)

theorem convertDateSet_dates_eq (getTime : Int → Option Int) (now : Int)
    (warn : Diag) (ds : List Int) :
    convertDateSet getTime now warn (.dates ds) =
      (if (filterFutureDates getTime now ds).isEmpty then .all false
       else .dates (filterFutureDates getTime now ds),
       (ds.filter (fun d => (getTime d).isNone)).map (fun _ => warn)) := rfl

/-- C6: a confirmed/canceled date list whose every date is dropped by
filtering collapses to the boolean none form `All(false)`; an empty
explicit list is never emitted; and a date-list source never yields the
`All(true)` form. -/
theorem convertDateSet_empty_collapse (getTime : Int → Option Int)
    (now : Int) (warn : Diag) (ds : List Int) :
    ((∀ d ∈ ds, ∀ t, getTime d = some t → ¬ now < t) →
      (convertDateSet getTime now warn (.dates ds)).1 = .all false) ∧
    (∀ l, (convertDateSet getTime now warn (.dates ds)).1 = .dates l →
      l ≠ []) ∧
    (convertDateSet getTime now warn (.dates ds)).1 ≠ .all true := by
  refine ⟨?_, ?_, ?_⟩
  · intro hdrop
    have hnil : filterFutureDates getTime now ds = [] := by
      unfold filterFutureDates
      rw [List.filter_eq_nil]
      intro d hd
      rcases hg : getTime d with - | t
      · simp
      · simpa using hdrop d hd t hg
    rw [convertDateSet_dates_eq, hnil]
    rfl
  · intro l hl
    rw [convertDateSet_dates_eq] at hl
    by_cases hemp : (filterFutureDates getTime now ds).isEmpty
    · rw [if_pos hemp] at hl
      cases hl
    · rw [if_neg hemp] at hl
      have : filterFutureDates getTime now ds = l := by
        injection hl
      rw [← this]
      intro h0
      rw [h0] at hemp
      exact hemp rfl
  · rw [convertDateSet_dates_eq]
    by_cases hemp : (filterFutureDates getTime now ds).isEmpty
    · rw [if_pos hemp]
      intro h
      have := DateSet.all.inj h
      cases this
    · rw [if_neg hemp]
      intro h
      cases h

/-- Witness for C6: a single date with no occurrence collapses to
`All(false)`. -/
theorem convertDateSet_empty_collapse_witness :
    (convertDateSet (fun _ => none) 0 Diag.confirmedOutOfRange
      (.dates [0])).1 = .all false :=
  (convertDateSet_empty_collapse (fun _ => none) 0 Diag.confirmedOutOfRange
    [0]).1 (by intro d hd t ht; cases ht)

/-- The start/end instant computation in `prepare_event` (`src/main.rs`
lines 518-540).  `tzMidnight d` models
`d.and_time(NaiveTime::MIN).and_local_timezone(tz).earliest().map(|t|
t.timestamp())`, i.e. the timestamp of the earliest valid local midnight of
day `d` in the event's zone, when one exists.  Dates are unbounded `Int`
days, so `checked_add_days(Days::new(1))` is modelled as `d + 1` (the
`chrono` date-range overflow cannot be hit for realistic dates).  The Rust
code computes the start bound first and propagates its error before
computing the end bound. -/
def prepareBounds (tzMidnight : Int → Option Int) (sd ed : Option Int) :
    Except Diag (Option Int × Option Int) :=
  match sd with
  | none =>
    match ed with
    | none => .ok (none, none)
    | some d =>
      match tzMidnight (d + 1) with
      | some t => .ok (none, some t)
      | none => .error .midnightEndMissing
  | some d =>
    match tzMidnight d with
    | none => .error .midnightStartMissing
    | some t =>
      match ed with
      | none => .ok (some t, none)
      | some d2 =>
        match tzMidnight (d2 + 1) with
        | some t2 => .ok (some t, some t2)
        | none => .error .midnightEndMissing

/-- C7: the output start instant is the local midnight of the start date,
the output end instant is the local midnight of the day after the end date
(exclusive end bound), and resolution fails with a fatal (severity-less,
hence counted) diagnostic when the required local midnight does not
exist. -/
theorem prepareBounds_spec (tzMidnight : Int → Option Int)
    (sd ed : Option Int) :
    (∀ d t, sd = some d → tzMidnight d = some t →
      ∀ r, prepareBounds tzMidnight sd ed = .ok r → r.1 = some t) ∧
    (∀ d, sd = some d → tzMidnight d = none →
      prepareBounds tzMidnight sd ed = .error .midnightStartMissing ∧
      handlerIncrements .midnightStartMissing = true) ∧
    (∀ d t, ed = some d → tzMidnight (d + 1) = some t →
      ∀ r, prepareBounds tzMidnight sd ed = .ok r → r.2 = some t) ∧
    (∀ d, ed = some d → tzMidnight (d + 1) = none →
      ∃ e, prepareBounds tzMidnight sd ed = .error e ∧
        handlerIncrements e = true) ∧
    (sd = none → ∀ r, prepareBounds tzMidnight sd ed = .ok r →
      r.1 = none) ∧
    (ed = none → ∀ r, prepareBounds tzMidnight sd ed = .ok r →
      r.2 = none) := by
  rcases hsd : sd with - | d
  · rcases hed : ed with - | d2
    · refine ⟨?_, ?_, ?_, ?_, ?_, ?_⟩
      · intro d t h
        cases h
      · intro d h
        cases h
      · intro d t h
        cases h
      · intro d h
        cases h
      · intro _ r hr
        have : (none, none) = r := by
          simpa [prepareBounds] using hr
        rw [← this]
      · intro _ r hr
        have : (none, none) = r := by
          simpa [prepareBounds] using hr
        rw [← this]
    · rcases hm : tzMidnight (d2 + 1) with - | t2
      · refine ⟨?_, ?_, ?_, ?_, ?_, ?_⟩
        · intro d t h
          cases h
        · intro d h
          cases h
        · intro d t hd hm2 r hr
          have hd2 : d = d2 := (Option.some.inj hd).symm
          subst hd2
          rw [hm] at hm2
          cases hm2
        · intro d hd _
          refine ⟨.midnightEndMissing, ?_, rfl⟩
          simp [prepareBounds, hm]
        · intro _ r hr
          simp [prepareBounds, hm] at hr
        · intro h
          cases h
      · refine ⟨?_, ?_, ?_, ?_, ?_, ?_⟩
        · intro d t h
          cases h
        · intro d h
          cases h
        · intro d t hd hm2 r hr
          have hd2 : d = d2 := (Option.some.inj hd).symm
          subst hd2
          rw [hm] at hm2
          have ht : t2 = t := Option.some.inj hm2
          subst ht
          have : (none, some t2) = r := by
            simpa [prepareBounds, hm] using hr
          rw [← this]
        · intro d hd hm2
          have hd2 : d = d2 := (Option.some.inj hd).symm
          subst hd2
          rw [hm] at hm2
          cases hm2
        · intro _ r hr
          have : (none, some t2) = r := by
            simpa [prepareBounds, hm] using hr
          rw [← this]
        · intro h
          cases h
  · rcases hms : tzMidnight d with - | t
    · refine ⟨?_, ?_, ?_, ?_, ?_, ?_⟩
      · intro d' t' hd' hm' r hr
        have hdd : d' = d := (Option.some.inj hd').symm
        subst hdd
        rw [hms] at hm'
        cases hm'
      · intro d' hd'
        have hdd : d' = d := (Option.some.inj hd').symm
        subst hdd
        intro _
        exact ⟨by simp [prepareBounds, hms], rfl⟩
      · intro d' t' _ _ r hr
        simp [prepareBounds, hms] at hr
      · intro d' _ _
        refine ⟨.midnightStartMissing, ?_, rfl⟩
        simp [prepareBounds, hms]
      · intro h
        cases h
      · intro _ r hr
        simp [prepareBounds, hms] at hr
    · rcases hed : ed with - | d2
      · refine ⟨?_, ?_, ?_, ?_, ?_, ?_⟩
        · intro d' t' hd' hm' r hr
          have hdd : d' = d := (Option.some.inj hd').symm
          subst hdd
          rw [hms] at hm'
          have htt : t = t' := Option.some.inj hm'
          subst htt
          have : (some t, none) = r := by
            simpa [prepareBounds, hms] using hr
          rw [← this]
        · intro d' hd' hm'
          have hdd : d' = d := (Option.some.inj hd').symm
          subst hdd
          rw [hms] at hm'
          cases hm'
        · intro d' t' h
          cases h
        · intro d' h
          cases h
        · intro h
          cases h
        · intro _ r hr
          have : (some t, none) = r := by
            simpa [prepareBounds, hms] using hr
          rw [← this]
      · rcases hm2 : tzMidnight (d2 + 1) with - | t2
        · refine ⟨?_, ?_, ?_, ?_, ?_, ?_⟩
          · intro d' t' hd' hm' r hr
            simp [prepareBounds, hms, hm2] at hr
          · intro d' hd' hm'
            have hdd : d' = d := (Option.some.inj hd').symm
            subst hdd
            rw [hms] at hm'
            cases hm'
          · intro d' t' hd' hm' r hr
            have hdd : d' = d2 := (Option.some.inj hd').symm
            subst hdd
            rw [hm2] at hm'
            cases hm'
          · intro d' hd' _
            refine ⟨.midnightEndMissing, ?_, rfl⟩
            simp [prepareBounds, hms, hm2]
          · intro h
            cases h
          · intro h
            cases h
        · refine ⟨?_, ?_, ?_, ?_, ?_, ?_⟩
          · intro d' t' hd' hm' r hr
            have hdd : d' = d := (Option.some.inj hd').symm
            subst hdd
            rw [hms] at hm'
            have htt : t = t' := Option.some.inj hm'
            subst htt
            have : (some t, some t2) = r := by
              simpa [prepareBounds, hms, hm2] using hr
            rw [← this]
          · intro d' hd' hm'
            have hdd : d' = d := (Option.some.inj hd').symm
            subst hdd
            rw [hms] at hm'
            cases hm'
          · intro d' t' hd' hm' r hr
            have hdd : d' = d2 := (Option.some.inj hd').symm
            subst hdd
            rw [hm2] at hm'
            have htt : t2 = t' := Option.some.inj hm'
            subst htt
            have : (some t, some t2) = r := by
              simpa [prepareBounds, hms, hm2] using hr
            rw [← this]
          · intro d' hd' hm'
            have hdd : d' = d2 := (Option.some.inj hd').symm
            subst hdd
            rw [hm2] at hm'
            cases hm'
          · intro h
            cases h
          · intro h
            cases h

/-- Witness for C7 at a UTC-like zone model. -/
theorem prepareBounds_spec_witness :
    (prepareBounds (fun d => some (d * 86400)) (some 10) (some 20) =
      Except.ok (some 864000, some 1814400)) ∧
    ((some (864000 : Int), some (1814400 : Int)).1 = some 864000) :=
  ⟨by rfl,
   (prepareBounds_spec (fun d => some (d * 86400)) (some 10) (some 20)).1
     10 864000 rfl (by rfl) (some 864000, some 1814400) (by rfl)⟩

/-! ## Poster guessing (`guess_poster`, `src/main.rs` lines 769-796)

A candidate path is the event file's stem together with an extension; the
input directory's file set is a list of such (stem, extension) pairs. -/

/-- The fixed probe order `["webp", "jpeg", "jpg", "png"]`
(`src/main.rs` line 770). -/
def posterExts : List String := ["webp", "jpeg", "jpg", "png"]

/-- The first loop of `guess_poster` (`src/main.rs` lines 772-780): walk
the extension iterator until a sibling file exists, returning the matching
extension and the unconsumed remainder of the iterator. -/
def findFirstExt (stem : String) (files : List (String × String)) :
    List String → Option (String × List String)
  | [] => none
  | e :: rest =>
    if files.contains (stem, e) then some (e, rest)
    else findFirstExt stem files rest

/-- `guess_poster` (`src/main.rs` lines 769-796): the first present
extension wins; the second loop keeps consuming the same iterator and emits
one `MultiplePosters` warning (naming the found file and the extra file)
per later-preferred extension that is also present. -/
def guessPoster (stem : String) (files : List (String × String)) :
    Option (String × String) × List ((String × String) × (String × String)) :=
  match findFirstExt stem files posterExts with
  | none => (none, [])
  | some (e, rest) =>
    (some (stem, e),
     (rest.filter (fun x => files.contains (stem, x))).map
       (fun x => ((stem, e), (stem, x))))

theorem findFirstExt_eq_none (stem : String)
    (files : List (String × String)) :
    ∀ exts : List String, (∀ e ∈ exts, files.contains (stem, e) = false) →
      findFirstExt stem files exts = none
  | [], _ => rfl
  | x :: xs, h => by
    unfold findFirstExt
    rw [h x (List.mem_cons_self x xs)]
    simp only [Bool.false_eq_true, if_false]
    exact findFirstExt_eq_none stem files xs
      (fun e he => h e (List.mem_cons_of_mem x he))

theorem findFirstExt_some_spec (stem : String)
    (files : List (String × String)) :
    ∀ (exts : List String) (e : String) (rest : List String),
      findFirstExt stem files exts = some (e, rest) →
      ∃ i : Fin exts.length,
        e = exts.get i ∧ rest = exts.drop (i.1 + 1) ∧
        files.contains (stem, exts.get i) = true ∧
        ∀ j : Fin exts.length, j < i →
          files.contains (stem, exts.get j) = false
  | [], e, rest, h => by cases h
  | x :: xs, e, rest, h => by
    unfold findFirstExt at h
    rcases hcv : files.contains (stem, x) with - | -
    · rw [hcv] at h
      simp only [Bool.false_eq_true, if_false] at h
      obtain ⟨i, hie, hirest, hicont, hifirst⟩ :=
        findFirstExt_some_spec stem files xs e rest h
      refine ⟨i.succ, hie, hirest, hicont, ?_⟩
      intro j hji
      rcases j with ⟨jv, hjlt⟩
      match jv with
      | 0 => exact hcv
      | k + 1 =>
        have hki : k < i.1 := Nat.lt_of_succ_lt_succ hji
        exact hifirst ⟨k, Nat.lt_of_succ_lt_succ hjlt⟩ hki
    · rw [hcv] at h
      simp only [if_true] at h
      have hpair : (x, xs) = (e, rest) := Option.some.inj h
      have hex : x = e := congrArg Prod.fst hpair
      have hrest : xs = rest := congrArg Prod.snd hpair
      refine ⟨⟨0, Nat.succ_pos _⟩, hex.symm, hrest.symm, ?_, ?_⟩
      · exact hcv
      · intro j hj
        exact absurd hj (by
          rcases j with ⟨jv, hjlt⟩
          intro hcon
          exact Nat.not_lt_zero jv hcon)

theorem guessPoster_eq_of_none (stem : String)
    (files : List (String × String))
    (h : findFirstExt stem files posterExts = none) :
    guessPoster stem files = (none, []) := by
  unfold guessPoster
  rw [h]

theorem guessPoster_eq_of_some (stem : String)
    (files : List (String × String)) (e : String) (rest : List String)
    (h : findFirstExt stem files posterExts = some (e, rest)) :
    guessPoster stem files =
      (some (stem, e),
       (rest.filter (fun x => files.contains (stem, x))).map
         (fun x => ((stem, e), (stem, x)))) := by
  unfold guessPoster
  rw [h]

/-- Each warning pair produced by the second loop of `guess_poster` is
printed as one `MultiplePosters` diagnostic
(`eprintln!("{:?}", Report::new(MultiplePosters { found, extra }))`,
`src/main.rs` lines 786-794). -/
def guessPosterDiags (stem : String) (files : List (String × String)) :
    List Diag :=
  (guessPoster stem files).2.map (fun _ => Diag.multiplePosters)

/-- C8: with no explicit poster path, the probe tries `webp`, `jpeg`,
`jpg`, `png` in that order: if no sibling file matches, no poster is
guessed; otherwise the first present extension is used, and one warning
naming the found file and the extra file is emitted per later-preferred
extension that is also present.  The `MultiplePosters` diagnostic declares
warning severity, so it is non-fatal: it does not increment the fatal-error
counter and never prevents the output artifacts from being written. -/
theorem guessPoster_spec (stem : String) (files : List (String × String)) :
    ((∀ e ∈ posterExts, files.contains (stem, e) = false) →
      guessPoster stem files = (none, [])) ∧
    (∀ p, (guessPoster stem files).1 = some p →
      ∃ i : Fin posterExts.length,
        p = (stem, posterExts.get i) ∧
        files.contains (stem, posterExts.get i) = true ∧
        (∀ j : Fin posterExts.length, j < i →
          files.contains (stem, posterExts.get j) = false) ∧
        (guessPoster stem files).2 =
          ((posterExts.drop (i.1 + 1)).filter
            (fun x => files.contains (stem, x))).map
            (fun x => (p, (stem, x)))) ∧
    declaredSeverity Diag.multiplePosters = some Severity.warning ∧
    handlerIncrements Diag.multiplePosters = false ∧
    (∀ ds : List Diag,
      outputsWritten (ds ++ guessPosterDiags stem files) =
        outputsWritten ds) := by
  refine ⟨?_, ?_, rfl, rfl, ?_⟩
  case refine_3 =>
    intro ds
    unfold outputsWritten errorCount guessPosterDiags
    rw [List.filter_append]
    have hnil : ((guessPoster stem files).2.map
        (fun _ => Diag.multiplePosters)).filter handlerIncrements = [] := by
      rw [List.filter_eq_nil]
      intro d hd
      rw [List.mem_map] at hd
      obtain ⟨x, -, hx⟩ := hd
      rw [← hx]
      simp [handlerIncrements, declaredSeverity]
    rw [hnil, List.append_nil]
  · intro hall
    exact guessPoster_eq_of_none stem files
      (findFirstExt_eq_none stem files posterExts hall)
  · intro p hp
    rcases hf : findFirstExt stem files posterExts with - | er
    · rw [guessPoster_eq_of_none stem files hf] at hp
      cases hp
    · rcases er with ⟨e, rest⟩
      have hgp := guessPoster_eq_of_some stem files e rest hf
      rw [hgp] at hp
      have hpe : p = (stem, e) := (Option.some.inj hp).symm
      obtain ⟨i, hie, hirest, hicont, hifirst⟩ :=
        findFirstExt_some_spec stem files posterExts e rest hf
      refine ⟨i, by rw [hpe, hie], hicont, hifirst, ?_⟩
      rw [hgp, hpe, hie, hirest]

/-- Witness for C8: no sibling file shares the stem, so no poster is
guessed. -/
theorem guessPoster_spec_witness :
    guessPoster "ev" [("other", "jpeg")] = (none, []) :=
  (guessPoster_spec "ev" [("other", "jpeg")]).1 (by decide)

/-! ## Durable state serialization (`src/state.rs`)

`State { posters: Vec<Poster> }` is serialized as JSON; each entry's
`last_used` is a `chrono` timestamp (whose serde round-trip is faithful and
is modelled as the identity on `Int`) and `sha256` is serialized by
`serialize_hash` as standard base64 with padding and deserialized by
`deserialize_hash`, which decodes into a 33-byte buffer and requires
exactly 32 decoded bytes.  The base64 alphabet and chunk arithmetic below
model the `base64` crate's `BASE64_STANDARD` engine (canonical padding
required, no trailing bits allowed). -/

def b64Chars : List Char :=
  ['A','B','C','D','E','F','G','H','I','J','K','L','M',
   'N','O','P','Q','R','S','T','U','V','W','X','Y','Z',
   'a','b','c','d','e','f','g','h','i','j','k','l','m',
   'n','o','p','q','r','s','t','u','v','w','x','y','z',
   '0','1','2','3','4','5','6','7','8','9','+','/']

def sextetToChar (n : Nat) : Char := b64Chars.getD n '='

def charIdx (c : Char) : List Char → Option Nat
  | [] => none
  | x :: xs => if x = c then some 0 else (charIdx c xs).map (· + 1)

def charToSextet (c : Char) : Option Nat := charIdx c b64Chars

theorem sextet_roundtrip : ∀ n, n < 64 → charToSextet (sextetToChar n) = some n := by decide

theorem sextet_ne_pad : ∀ n, n < 64 → sextetToChar n ≠ '=' := by decide

def b64EncodeChunks : List Nat → List Char
  | [] => []
  | [b0] => [sextetToChar (b0 / 4), sextetToChar (b0 % 4 * 16), '=', '=']
  | [b0, b1] => [sextetToChar (b0 / 4), sextetToChar (b0 % 4 * 16 + b1 / 16),
                 sextetToChar (b1 % 16 * 4), '=']
  | b0 :: b1 :: b2 :: rest =>
    sextetToChar (b0 / 4) :: sextetToChar (b0 % 4 * 16 + b1 / 16) ::
    sextetToChar (b1 % 16 * 4 + b2 / 64) :: sextetToChar (b2 % 64) ::
    b64EncodeChunks rest

def b64DecodeChunks : List Char → Option (List Nat)
  | [] => some []
  | c0 :: c1 :: c2 :: c3 :: restc =>
    match charToSextet c0, charToSextet c1 with
    | some s0, some s1 =>
      if c2 = '=' then
        if c3 = '=' ∧ restc = [] then
          if s1 % 16 = 0 then some [s0 * 4 + s1 / 16] else none
        else none
      else
        match charToSextet c2 with
        | some s2 =>
          if c3 = '=' then
            if restc = [] then
              if s2 % 4 = 0 then some [s0 * 4 + s1 / 16, s1 % 16 * 16 + s2 / 4]
              else none
            else none
          else
            match charToSextet c3 with
            | some s3 =>
              match b64DecodeChunks restc with
              | some tail =>
                some ((s0 * 4 + s1 / 16) :: (s1 % 16 * 16 + s2 / 4) ::
                      (s2 % 4 * 64 + s3) :: tail)
              | none => none
            | none => none
        | none => none
    | _, _ => none
  | _ => none

theorem b64_roundtrip : ∀ (l : List Nat), (∀ b ∈ l, b < 256) →
    b64DecodeChunks (b64EncodeChunks l) = some l
  | [], _ => rfl
  | [b0], h => by
    have hb0 : b0 < 256 := h b0 (by simp)
    have hs0 : b0 / 4 < 64 := by omega
    have hs1 : b0 % 4 * 16 < 64 := by omega
    have hm : b0 % 4 * 16 % 16 = 0 := by omega
    have hv : b0 / 4 * 4 + b0 % 4 * 16 / 16 = b0 := by omega
    show b64DecodeChunks
      [sextetToChar (b0 / 4), sextetToChar (b0 % 4 * 16), '=', '='] = some [b0]
    simp only [b64DecodeChunks, sextet_roundtrip _ hs0, sextet_roundtrip _ hs1,
      if_pos rfl, hm, hv, and_self, if_true]
  | [b0, b1], h => by
    have hb0 : b0 < 256 := h b0 (by simp)
    have hb1 : b1 < 256 := h b1 (by simp)
    have hs0 : b0 / 4 < 64 := by omega
    have hs1 : b0 % 4 * 16 + b1 / 16 < 64 := by omega
    have hs2 : b1 % 16 * 4 < 64 := by omega
    have hm : b1 % 16 * 4 % 4 = 0 := by omega
    have e1 : b0 / 4 * 4 + (b0 % 4 * 16 + b1 / 16) / 16 = b0 := by omega
    have e2 : (b0 % 4 * 16 + b1 / 16) % 16 * 16 + b1 % 16 * 4 / 4 = b1 := by omega
    show b64DecodeChunks
      [sextetToChar (b0 / 4), sextetToChar (b0 % 4 * 16 + b1 / 16),
       sextetToChar (b1 % 16 * 4), '='] = some [b0, b1]
    simp only [b64DecodeChunks, sextet_roundtrip _ hs0, sextet_roundtrip _ hs1,
      sextet_roundtrip _ hs2, if_neg (sextet_ne_pad _ hs2), if_pos rfl,
      hm, e1, e2, if_true]
  | b0 :: b1 :: b2 :: rest, h => by
    have hb0 : b0 < 256 := h b0 (by simp)
    have hb1 : b1 < 256 := h b1 (by simp)
    have hb2 : b2 < 256 := h b2 (by simp)
    have hs0 : b0 / 4 < 64 := by omega
    have hs1 : b0 % 4 * 16 + b1 / 16 < 64 := by omega
    have hs2 : b1 % 16 * 4 + b2 / 64 < 64 := by omega
    have hs3 : b2 % 64 < 64 := by omega
    have e1 : b0 / 4 * 4 + (b0 % 4 * 16 + b1 / 16) / 16 = b0 := by omega
    have e2 : (b0 % 4 * 16 + b1 / 16) % 16 * 16 + (b1 % 16 * 4 + b2 / 64) / 4 = b1 := by
      omega
    have e3 : (b1 % 16 * 4 + b2 / 64) % 4 * 64 + b2 % 64 = b2 := by omega
    have ih := b64_roundtrip rest
      (fun b hb => h b (List.mem_cons_of_mem _ (List.mem_cons_of_mem _
        (List.mem_cons_of_mem _ hb))))
    show b64DecodeChunks
      (sextetToChar (b0 / 4) :: sextetToChar (b0 % 4 * 16 + b1 / 16) ::
       sextetToChar (b1 % 16 * 4 + b2 / 64) :: sextetToChar (b2 % 64) ::
       b64EncodeChunks rest) = some (b0 :: b1 :: b2 :: rest)
    simp only [b64DecodeChunks, sextet_roundtrip _ hs0, sextet_roundtrip _ hs1,
      sextet_roundtrip _ hs2, sextet_roundtrip _ hs3,
      if_neg (sextet_ne_pad _ hs2), if_neg (sextet_ne_pad _ hs3),
      ih, e1, e2, e3]


/-- `serialize_hash` (`src/state.rs` lines 21-26). -/
def serialize_hash (h : Digest) : List Char := b64EncodeChunks h

/-- `deserialize_hash` (`src/state.rs` lines 28-59): decode into a 33-byte
buffer (larger decodes fail) and reject any decoded length other than 32. -/
def deserialize_hash (s : List Char) : Option Digest :=
  match b64DecodeChunks s with
  | none => none
  | some l =>
    if l.length > 33 then none
    else if l.length = 32 then some l else none

/-- Serialization of `State::posters`: element-wise, in order. -/
def serializeState (ps : List Poster) : List (Int × List Char) :=
  ps.map (fun p => (p.last_used, serialize_hash p.sha256))

/-- Deserialization of `State::posters`: element-wise and fail-fast, as
serde does for a `Vec`. -/
def deserializeState : List (Int × List Char) → Option (List Poster)
  | [] => some []
  | (t, s) :: rest =>
    match deserialize_hash s, deserializeState rest with
    | some h, some r => some (⟨t, h⟩ :: r)
    | _, _ => none

theorem deserialize_serialize_hash (h : Digest) (hlen : h.length = 32)
    (hbytes : ∀ b ∈ h, b < 256) :
    deserialize_hash (serialize_hash h) = some h := by
  unfold deserialize_hash serialize_hash
  rw [b64_roundtrip h hbytes]
  show (if h.length > 33 then none
    else if h.length = 32 then some h else none) = some h
  rw [if_neg (by omega), if_pos hlen]

/-- C9: serializing the durable state catalogue and deserializing the
result yields an identical catalogue -- every entry keeps its 32-byte
digest (the base64 encoding round-trips), its last-used timestamp, and its
position in the list (its slot) -- and a digest string decoding to a length
other than 32 bytes is rejected. -/
theorem state_roundtrip (ps : List Poster)
    (hh : ∀ p ∈ ps, p.sha256.length = 32 ∧ ∀ b ∈ p.sha256, b < 256) :
    deserializeState (serializeState ps) = some ps ∧
    (∀ h : Digest, h.length ≠ 32 → (∀ b ∈ h, b < 256) →
      deserialize_hash (serialize_hash h) = none) := by
  constructor
  · induction ps with
    | nil => rfl
    | cons p rest ih =>
      obtain ⟨hlen, hbytes⟩ := hh p (List.mem_cons_self p rest)
      have hrest := ih (fun q hq => hh q (List.mem_cons_of_mem p hq))
      show deserializeState ((p.last_used, serialize_hash p.sha256) ::
        serializeState rest) = some (p :: rest)
      unfold deserializeState
      rw [deserialize_serialize_hash p.sha256 hlen hbytes, hrest]
  · intro h hne hbytes
    unfold deserialize_hash serialize_hash
    rw [b64_roundtrip h hbytes]
    show (if h.length > 33 then none
      else if h.length = 32 then some h else none) = none
    by_cases hgt : h.length > 33
    · rw [if_pos hgt]
    · rw [if_neg hgt, if_neg hne]

/-- Witness for C9 with a concrete one-entry catalogue. -/
theorem state_roundtrip_witness :
    deserializeState (serializeState [⟨5, List.replicate 32 7⟩]) =
      some [⟨5, List.replicate 32 7⟩] :=
  (state_roundtrip [⟨5, List.replicate 32 7⟩] (by decide)).1

end WcCompiler
